import Mathlib

/-!
# Verification of the AthleteTracker results-ranking and lifecycle core

Shallow embedding of the ranking engine (`calculateRankings` in
`client/src/pages/events.tsx`), the performance-recording path
(`POST /api/performances` in `server/routes.ts` and
`PostgresStorage.recordPerformance`), the event-update path
(`PUT /api/events/:id` and `PostgresStorage.updateEvent`), the attendance
upsert (`PostgresStorage.markAttendance`), the event deletion cascade
(`PostgresStorage.deleteEvent`), and the parent-invite claim flow
(`PostgresStorage.validateInviteCode` / `claimInvite`,
`POST /api/parent-invites/complete`).

Strings are modelled as `List Char`; database ids and timestamps as `ℕ`.
JavaScript numbers arising from measurement parsing are modelled exactly:
every number produced here is a nonnegative decimal `m / 10 ^ e`, captured
by the structure `Decimal`, with `none : Option Decimal` playing the role
of NaN.  Comparisons on `Decimal` agree with the rational order on the
denoted values (`Decimal.toRat`).
-/

namespace AthleteTracker

/-! ## JavaScript string and number primitives -/

/-- Whitespace test used by `String.prototype.trim` (the whitespace
characters that occur in this domain). -/
def isJsWhitespace (c : Char) : Bool :=
  c = ' ' || c = '\t' || c = '\n' || c = '\r'

/-- `String.prototype.trim`: drop whitespace from both ends. -/
def jsTrim (s : List Char) : List Char :=
  ((s.dropWhile isJsWhitespace).reverse.dropWhile isJsWhitespace).reverse

/-- The regex replacement `.replace(/[^0-9.]/g, '')`: keep only decimal
digits and the dot. -/
def stripNonNumeric (s : List Char) : List Char :=
  s.filter (fun c => c.isDigit || c = '.')

/-- Value of a digit string read left to right. -/
def digitsVal (l : List Char) : ℕ :=
  l.foldl (fun a c => 10 * a + (c.toNat - 48)) 0

/-- Exact nonnegative decimal `num / 10 ^ exp`: the value space of
`parseFloat` on the digit-and-dot strings occurring here. -/
structure Decimal where
  num : ℕ
  exp : ℕ
  deriving DecidableEq, Repr

/-- The rational denoted by a `Decimal`. -/
def Decimal.toRat (d : Decimal) : ℚ :=
  (d.num : ℚ) / 10 ^ d.exp

/-- Strict order on decimals, by cross multiplication. -/
def Decimal.blt (x y : Decimal) : Bool :=
  decide (x.num * 10 ^ y.exp < y.num * 10 ^ x.exp)

/-- Nonstrict order on decimals, by cross multiplication. -/
def Decimal.ble (x y : Decimal) : Bool :=
  decide (x.num * 10 ^ y.exp ≤ y.num * 10 ^ x.exp)

/-- `parseFloat` restricted to strings of digits and dots (the only
inputs it receives here, after `stripNonNumeric`): parse the longest
prefix of shape `digits [. digits]` or `. digits`; if there is no such
nonempty prefix the result is NaN (`none`). -/
def jsParseFloat (s : List Char) : Option Decimal :=
  let d1 := s.takeWhile Char.isDigit
  let rest := s.drop d1.length
  let d2 := match rest with
    | '.' :: r => r.takeWhile Char.isDigit
    | _ => []
  if d1.isEmpty && d2.isEmpty then none
  else some ⟨digitsVal d1 * 10 ^ d2.length + digitsVal d2, d2.length⟩

/-- JavaScript `<` on numbers: false whenever either side is NaN. -/
def jsLt (a b : Option Decimal) : Bool :=
  match a, b with
  | some x, some y => x.blt y
  | _, _ => false

/-- JavaScript `>` on numbers: false whenever either side is NaN. -/
def jsGt (a b : Option Decimal) : Bool :=
  match a, b with
  | some x, some y => y.blt x
  | _, _ => false

/-- The JavaScript idiom `m || d` on a nullable string: the fallback `d`
is used when `m` is `null` or the empty string (the only falsy strings). -/
def measOr (d : List Char) (m : Option (List Char)) : List Char :=
  match m with
  | none => d
  | some s => if s.isEmpty then d else s

/-- Truthiness of `p.measurement && p.measurement.trim()`: a non-null,
nonempty string whose trim is nonempty. -/
def validMeas (m : Option (List Char)) : Bool :=
  match m with
  | none => false
  | some s => !s.isEmpty && !(jsTrim s).isEmpty

/-! ## Data model (shared/schema.ts, migrations) -/

inductive EventType
  | running | long_jump | high_jump | shot_put | javelin | discus
  deriving DecidableEq, Repr

inductive EventStatus
  | planned | in_progress | completed
  deriving DecidableEq, Repr

inductive Role
  | coach | parent | admin
  deriving DecidableEq, Repr

structure User where
  id : ℕ
  role : Role
  deriving DecidableEq, Repr

structure Student where
  id : ℕ
  name : List Char
  coachId : ℕ
  deriving DecidableEq, Repr

structure Event where
  id : ℕ
  name : List Char
  type : EventType
  date : ℕ
  rounds : ℕ
  coachId : ℕ
  status : EventStatus
  deriving DecidableEq, Repr

structure Performance where
  studentId : ℕ
  eventId : ℕ
  measurement : Option (List Char)
  rank : Option ℕ
  round : ℕ
  personalBest : Bool
  deriving DecidableEq, Repr

/-! ## Ranking engine (`calculateRankings`, client/src/pages/events.tsx) -/

/-- One pre-rank entry pushed onto `rankings`. -/
structure RankEntry where
  student : Student
  bestPerformance : List Char
  numericValue : Option Decimal
  deriving DecidableEq, Repr

/-- Final ranking entry: the JS spread `{...ranking, rank: index + 1}`. -/
structure RankedEntry where
  entry : RankEntry
  rank : ℕ
  deriving DecidableEq, Repr

/-- Key list of the `Map` built by grouping `validPerformances` by
`studentId`: keys in first-insertion order, no duplicates. -/
def mapKeysAux (acc : List ℕ) : List Performance → List ℕ
  | [] => acc
  | p :: ps => mapKeysAux (if p.studentId ∈ acc then acc else acc ++ [p.studentId]) ps

def mapKeys (ps : List Performance) : List ℕ :=
  mapKeysAux [] ps

/-- Normalization used inside the running reduce:
`parseFloat((x.measurement || "999999").replace(/[^0-9.]/g, ''))`. -/
def normRunning (m : Option (List Char)) : Option Decimal :=
  jsParseFloat (stripNonNumeric (measOr ("999999").toList m))

/-- Normalization used inside the field-event reduce:
`parseFloat((x.measurement || "0").replace(/[^0-9.]/g, ''))`. -/
def normField (m : Option (List Char)) : Option Decimal :=
  jsParseFloat (stripNonNumeric (measOr ("0").toList m))

/-- The comparison step of the reduce: does `cur` replace `best`?
Running compares with `<` (lower time wins), field events with `>`
(greater distance wins). -/
def betterThan (t : EventType) (cur best : Performance) : Bool :=
  if t = EventType.running then
    jsLt (normRunning cur.measurement) (normRunning best.measurement)
  else
    jsGt (normField cur.measurement) (normField best.measurement)

/-- `studentPerfs.reduce(f, studentPerfs[0])`: the initial value is the
head and the fold also visits the head. -/
def reduceBest (t : EventType) (p0 : Performance) (l : List Performance) : Performance :=
  (p0 :: l).foldl (fun best cur => if betterThan t cur best then cur else best) p0

/-- Body of the `studentPerformances.forEach` callback: produce the entry
pushed for one map key, or nothing when the student is missing from the
student list (or the group is empty). -/
def entryForStudent (t : EventType) (validPerformances : List Performance)
    (students : List Student) (sid : ℕ) : Option RankEntry :=
  match students.find? (fun s => s.id == sid) with
  | none => none
  | some student =>
    match validPerformances.filter (fun p => p.studentId == sid) with
    | [] => none
    | p0 :: rest =>
      let best := reduceBest t p0 rest
      let measurementValue := measOr ("0").toList best.measurement
      some ⟨student, measurementValue, jsParseFloat (stripNonNumeric measurementValue)⟩

/-- ECMAScript `SortCompare` of the comparator
`(a, b) => a.numericValue - b.numericValue`, as a nonstrict order:
`a - b ≤ 0`, where a NaN comparator result counts as `+0` (so NaN
compares as equal to everything). -/
def sortKeyLe (a b : Option Decimal) : Bool :=
  match a, b with
  | some x, some y => x.ble y
  | _, _ => true

/-- The sort predicate induced by the comparator
`(a, b) => a.numericValue - b.numericValue` for running and
`(a, b) => b.numericValue - a.numericValue` for field events. -/
def rankingLe (t : EventType) (a b : RankEntry) : Bool :=
  if t = EventType.running then sortKeyLe a.numericValue b.numericValue
  else sortKeyLe b.numericValue a.numericValue

/-- Stable insertion (an element being inserted came earlier in the
original list, so among comparator-equal elements it goes first),
modelling the stable `Array.prototype.sort`. -/
def orderedInsertB (le : RankEntry → RankEntry → Bool) (a : RankEntry) :
    List RankEntry → List RankEntry
  | [] => [a]
  | b :: l => if le a b then a :: b :: l else b :: orderedInsertB le a l

def insertionSortB (le : RankEntry → RankEntry → Bool) :
    List RankEntry → List RankEntry
  | [] => []
  | a :: l => orderedInsertB le a (insertionSortB le l)

/-- `rankings.map((ranking, index) => ({...ranking, rank: index + 1}))`,
with the running index made explicit. -/
def addRanks : ℕ → List RankEntry → List RankedEntry
  | _, [] => []
  | n, e :: l => ⟨e, n⟩ :: addRanks (n + 1) l

/-- `calculateRankings(event, performances, students)` from
`client/src/pages/events.tsx`: filter blank measurements, group by
student in first-encounter order, pick each student's best by the
event-type rule, sort by the event-type comparator (stable), and number
the result from 1. -/
def calculateRankings (event : Event) (performances : List Performance)
    (students : List Student) : List RankedEntry :=
  let validPerformances := performances.filter (fun p => validMeas p.measurement)
  let entries := (mapKeys validPerformances).filterMap
    (entryForStudent event.type validPerformances students)
  addRanks 1 (insertionSortB (rankingLe event.type) entries)

/-! ## Performance recording (`POST /api/performances`,
`PostgresStorage.recordPerformance`) -/

/-- The `insertPerformanceSchema` payload: every `performances` column
except `id` and `createdAt` (so `personalBest` may be supplied, and the
database default `false` applies when it is absent). -/
structure InsertPerformance where
  studentId : ℕ
  eventId : ℕ
  measurement : Option (List Char)
  rank : Option ℕ
  round : ℕ
  personalBest : Bool
  deriving DecidableEq, Repr

/-- `PostgresStorage.recordPerformance`: a plain
`INSERT ... RETURNING`; no comparison with the student's history is
performed anywhere on this path. -/
def recordPerformance (perfs : List Performance) (p : InsertPerformance) :
    List Performance × Performance :=
  let row : Performance :=
    ⟨p.studentId, p.eventId, p.measurement, p.rank, p.round, p.personalBest⟩
  (perfs ++ [row], row)

/-- `savePerformanceMutation` in `record-performance.tsx` posts only
`{studentId, eventId, measurement, round}`; `personalBest` is never sent,
so the stored row carries the schema default `false`. -/
def clientSavePerformance (perfs : List Performance) (studentId eventId : ℕ)
    (measurement : List Char) (round : ℕ) : List Performance × Performance :=
  recordPerformance perfs ⟨studentId, eventId, some measurement, none, round, false⟩

/-! ## Event update and lifecycle (`PUT /api/events/:id`,
`PostgresStorage.updateEvent`, `handleFinishEvent`) -/

/-- A `insertEventSchema.partial()` payload: any subset of the event's
insert columns, `status` included. -/
structure EventUpdate where
  name : Option (List Char)
  type : Option EventType
  date : Option ℕ
  rounds : Option ℕ
  status : Option EventStatus
  deriving DecidableEq, Repr

/-- Effect of `UPDATE events SET <payload> WHERE id = ?` on one row:
each supplied column overwrites, absent columns are kept. -/
def applyEventUpdate (ev : Event) (u : EventUpdate) : Event :=
  { ev with
    name := u.name.getD ev.name
    type := u.type.getD ev.type
    date := u.date.getD ev.date
    rounds := u.rounds.getD ev.rounds
    status := u.status.getD ev.status }

/-- `PostgresStorage.updateEvent`: the update applied to the events
table. -/
def updateEvent (events : List Event) (id : ℕ) (u : EventUpdate) : List Event :=
  events.map (fun ev => if ev.id == id then applyEventUpdate ev u else ev)

/-- The tables touched by the event routes. -/
structure DB where
  events : List Event
  performances : List Performance
  deriving DecidableEq, Repr

inductive PutEventResult
  | notFound
  | forbidden
  | ok (ev : Event)
  deriving DecidableEq, Repr

/-- `PUT /api/events/:id` (server/routes.ts): 404 when the event does not
exist, 403 for parents and non-owners; otherwise the parsed partial
update is applied unconditionally — the handler never consults the
performance table, and `status` is passed through without transition
validation. -/
def putEventHandler (db : DB) (user : User) (id : ℕ) (u : EventUpdate) :
    DB × PutEventResult :=
  match db.events.find? (fun e => e.id == id) with
  | none => (db, PutEventResult.notFound)
  | some existing =>
    if user.role = Role.parent then (db, PutEventResult.forbidden)
    else if existing.coachId ≠ user.id then (db, PutEventResult.forbidden)
    else ({ db with events := updateEvent db.events id u },
          PutEventResult.ok (applyEventUpdate existing u))

/-- `finishEventMutation` payload: `PUT ... { status: "completed" }`. -/
def finishEventUpdate : EventUpdate :=
  ⟨none, none, none, none, some EventStatus.completed⟩

/-- `startEventMutation` payload: `PUT ... { status: "in_progress" }`. -/
def startEventUpdate : EventUpdate :=
  ⟨none, none, none, none, some EventStatus.in_progress⟩

inductive FinishOutcome
  | blockedNoPerformances
  | requested (u : EventUpdate)
  deriving DecidableEq, Repr

/-- `handleFinishEvent` (record-performance.tsx): refuse with an error
toast when the event has zero recorded performances, otherwise issue the
completion request (the `window.confirm` interaction is elided). -/
def handleFinishEvent (existingPerformances : List Performance) : FinishOutcome :=
  if 0 < existingPerformances.length then FinishOutcome.requested finishEventUpdate
  else FinishOutcome.blockedNoPerformances

/-- Forward order of the event lifecycle
`planned → in_progress → completed`. -/
def statusRank : EventStatus → ℕ
  | EventStatus.planned => 0
  | EventStatus.in_progress => 1
  | EventStatus.completed => 2

/-- `PostgresStorage.deleteEvent` (postgres-storage.ts): delete all
performances whose `eventId` references the event, then delete the event
row.  This class is NOT the `storage` singleton the routes import. -/
def postgresDeleteEvent (db : DB) (id : ℕ) : DB :=
  { db with
    performances := db.performances.filter (fun p => !(p.eventId == id))
    events := db.events.filter (fun e => !(e.id == id)) }

/-- `DatabaseStorage.deleteEvent` (storage.ts): the implementation behind
the `storage` singleton that routes.ts imports and the
`DELETE /api/events/:id` handler calls.  It runs only
`db.delete(events).where(eq(events.id, id))` — the performance table is
never touched. -/
def databaseDeleteEvent (db : DB) (id : ℕ) : DB :=
  { db with events := db.events.filter (fun e => !(e.id == id)) }

/-! ## Attendance upsert (`PostgresStorage.markAttendance`) -/

structure Attendance where
  studentId : ℕ
  date : ℕ
  present : Bool
  late : Bool
  coachId : ℕ
  deriving DecidableEq, Repr

/-- One element of the `markAttendance` payload. -/
structure InsertAttendance where
  studentId : ℕ
  date : ℕ
  present : Bool
  late : Bool
  coachId : ℕ
  deriving DecidableEq, Repr

/-- The conflict target `(student_id, date)`. -/
def attendanceKey (sid d : ℕ) (r : Attendance) : Bool :=
  r.studentId == sid && r.date == d

/-- One `INSERT ... ON CONFLICT (student_id, date) DO UPDATE SET present,
late, coach_id`. -/
def upsertAttendance (db : List Attendance) (a : InsertAttendance) : List Attendance :=
  if db.any (attendanceKey a.studentId a.date) then
    db.map (fun r => if attendanceKey a.studentId a.date r then
      { r with present := a.present, late := a.late, coachId := a.coachId } else r)
  else db ++ [⟨a.studentId, a.date, a.present, a.late, a.coachId⟩]

/-- `PostgresStorage.markAttendance`: upsert each record in order. -/
def markAttendance (db : List Attendance) (l : List InsertAttendance) : List Attendance :=
  l.foldl upsertAttendance db

/-- Number of stored rows for a given (student, date) key. -/
def keyCount (db : List Attendance) (sid d : ℕ) : ℕ :=
  (db.filter (attendanceKey sid d)).length

/-! ## Parent-invite claim flow (`validateInviteCode`, `claimInvite`,
`POST /api/parent-invites/complete`) -/

/-- A `parent_invites` row (columns per the migration SQL; contact
fields irrelevant to the claim flow are omitted). -/
structure ParentInvite where
  id : ℕ
  coachId : ℕ
  parentUserId : Option ℕ
  inviteCode : List Char
  studentId : ℕ
  claimed : Bool
  claimedAt : Option ℕ
  expiresAt : Option ℕ
  deriving DecidableEq, Repr

structure InviteValidation where
  coachId : ℕ
  studentId : ℕ
  inviteId : ℕ
  deriving DecidableEq, Repr

/-- `PostgresStorage.validateInviteCode`: look the code up (first match),
fail on no row, on `claimed`, or on a past `expiresAt`; no mutation. -/
def validateInviteCode (db : List ParentInvite) (code : List Char) (now : ℕ) :
    Option InviteValidation :=
  match db.find? (fun inv => inv.inviteCode == code) with
  | none => none
  | some inv =>
    if inv.claimed then none
    else match inv.expiresAt with
      | some t => if t < now then none else some ⟨inv.coachId, inv.studentId, inv.id⟩
      | none => some ⟨inv.coachId, inv.studentId, inv.id⟩

/-- The `SET` clause of the conditional update in `claimInvite`. -/
def claimRowUpdate (parentUserId now : ℕ) (inv : ParentInvite) : ParentInvite :=
  { inv with claimed := true, claimedAt := some now,
             parentUserId := some parentUserId }

/-- `PostgresStorage.claimInvite`: the conditional update
`SET claimed = true, claimedAt = now(), parent_user_id = ?
WHERE id = ? AND claimed = false RETURNING *`; the call returns the
updated row, or `none` when zero rows matched. -/
def claimInvite (db : List ParentInvite) (inviteId parentUserId now : ℕ) :
    List ParentInvite × Option ParentInvite :=
  (db.map (fun inv => if inv.id == inviteId && !inv.claimed
      then claimRowUpdate parentUserId now inv else inv),
   ((db.filter (fun inv => inv.id == inviteId && !inv.claimed)).head?).map
     (claimRowUpdate parentUserId now))

/-- `PostgresStorage.addParentInvite`: a plain insert. -/
def addParentInvite (db : List ParentInvite) (inv : ParentInvite) : List ParentInvite :=
  db ++ [inv]

/-- `updateUserRole`: set one user's role. -/
def updateUserRole (users : List User) (userId : ℕ) (r : Role) : List User :=
  users.map (fun u => if u.id == userId then { u with role := r } else u)

inductive CompleteResult
  | invalidCode
  | alreadyClaimed
  | success (v : InviteValidation)
  deriving DecidableEq, Repr

/-- `POST /api/parent-invites/complete` (server/routes.ts): validate the
code (400 on failure, before any write), promote the caller to `parent`,
then claim; a zero-row conditional update fails the registration. -/
def completeParentRegistration (invites : List ParentInvite) (users : List User)
    (userId : ℕ) (code : List Char) (now : ℕ) :
    List ParentInvite × List User × CompleteResult :=
  match validateInviteCode invites code now with
  | none => (invites, users, CompleteResult.invalidCode)
  | some v =>
    let users' := updateUserRole users userId Role.parent
    match claimInvite invites v.inviteId userId now with
    | (invites', some _) => (invites', users', CompleteResult.success v)
    | (invites', none) => (invites', users', CompleteResult.alreadyClaimed)

/-- The storage operations that ever write the `parent_invites` table. -/
inductive InviteOp
  | claim (inviteId parentUserId now : ℕ)
  | add (inv : ParentInvite)
  deriving DecidableEq, Repr

/-- Does this operation attempt to claim invite `i`? -/
def targetsInvite : InviteOp → ℕ → Bool
  | InviteOp.claim j _ _, i => j == i
  | InviteOp.add _, _ => false

/-- Run one operation, reporting whether it was a successful claim. -/
def stepInvite (db : List ParentInvite) : InviteOp → List ParentInvite × Bool
  | InviteOp.claim i u n => ((claimInvite db i u n).1, (claimInvite db i u n).2.isSome)
  | InviteOp.add inv => (addParentInvite db inv, false)

/-- Number of successful claims of invite `i` along a run of operations. -/
def claimSuccessCount (i : ℕ) : List ParentInvite → List InviteOp → ℕ
  | _, [] => 0
  | db, op :: rest =>
    (if (stepInvite db op).2 && targetsInvite op i then 1 else 0) +
      claimSuccessCount i (stepInvite db op).1 rest

/-! ## Concrete instances used by witnesses and counterexamples -/

def wCoach : User := ⟨7, Role.coach⟩

def wStudentA : Student := ⟨1, ("Asha").toList, 7⟩

def wStudentB : Student := ⟨2, ("Banu").toList, 7⟩

def wEventRun : Event := ⟨10, ("100m").toList, EventType.running, 0, 2, 7,
  EventStatus.in_progress⟩

/-- The spec's running example: A runs 13.2s then 12.8s, B runs 12.9s. -/
def wPerfsRun : List Performance :=
  [⟨1, 10, some (("13.2s").toList), none, 1, false⟩,
   ⟨1, 10, some (("12.8s").toList), none, 2, false⟩,
   ⟨2, 10, some (("12.9s").toList), none, 1, false⟩]

/-- A blank-measurement performance (filtered out of every ranking). -/
def wPerfBlank : Performance := ⟨1, 10, some ((" ").toList), none, 1, false⟩

/-- Student A's non-numeric then numeric running measurements. -/
def wPerfsAbc : List Performance :=
  [⟨1, 10, some (("abc").toList), none, 1, false⟩,
   ⟨1, 10, some (("5").toList), none, 2, false⟩]

def wEventInProgress : Event := ⟨20, ("Sprint").toList, EventType.running, 0, 1, 7,
  EventStatus.in_progress⟩

/-- An in-progress event with zero recorded performances. -/
def wDbNoPerfs : DB := ⟨[wEventInProgress], []⟩

def wEventCompleted : Event := ⟨30, ("Meet").toList, EventType.running, 0, 1, 7,
  EventStatus.completed⟩

def wDbCompleted : DB := ⟨[wEventCompleted], []⟩

/-- The running event together with one recorded performance for it. -/
def wDbWithPerf : DB :=
  ⟨[wEventRun], [⟨1, 10, some (("12.8s").toList), none, 1, false⟩]⟩

/-- A status update regressing to `planned`. -/
def backToPlanned : EventUpdate := ⟨none, none, none, none, some EventStatus.planned⟩

/-- An already-claimed invite. -/
def wInviteClaimed : ParentInvite :=
  ⟨50, 7, some 99, ("CODE-1").toList, 1, true, some 5, none⟩

/-- A fresh unclaimed invite. -/
def wInviteFresh : ParentInvite :=
  ⟨60, 7, none, ("CODE-2").toList, 2, false, none, none⟩

/-! ## Basic lemmas about the embedding -/

theorem Decimal.toRat_pow_pos (e : ℕ) : (0 : ℚ) < 10 ^ e := by positivity

theorem Decimal.ble_iff (x y : Decimal) : x.ble y = true ↔ x.toRat ≤ y.toRat := by
  unfold Decimal.ble Decimal.toRat
  rw [decide_eq_true_iff, div_le_div_iff₀ (toRat_pow_pos _) (toRat_pow_pos _)]
  exact_mod_cast Iff.rfl

theorem Decimal.blt_iff (x y : Decimal) : x.blt y = true ↔ x.toRat < y.toRat := by
  unfold Decimal.blt Decimal.toRat
  rw [decide_eq_true_iff, div_lt_div_iff₀ (toRat_pow_pos _) (toRat_pow_pos _)]
  exact_mod_cast Iff.rfl

theorem mem_mapKeysAux (k : ℕ) : ∀ (ps : List Performance) (acc : List ℕ),
    k ∈ mapKeysAux acc ps ↔ k ∈ acc ∨ ∃ p ∈ ps, p.studentId = k := by
  intro ps
  induction ps with
  | nil => intro acc; simp [mapKeysAux]
  | cons p ps ih =>
    intro acc
    rw [mapKeysAux, ih]
    by_cases hmem : p.studentId ∈ acc
    · simp only [if_pos hmem]
      constructor
      · rintro (h | h)
        · exact Or.inl h
        · exact Or.inr ⟨h.choose, List.mem_cons_of_mem _ h.choose_spec.1, h.choose_spec.2⟩
      · rintro (h | ⟨q, hq, hqk⟩)
        · exact Or.inl h
        · rcases List.mem_cons.mp hq with rfl | hq'
          · exact Or.inl (hqk ▸ hmem)
          · exact Or.inr ⟨q, hq', hqk⟩
    · simp only [if_neg hmem, List.mem_append, List.mem_singleton]
      constructor
      · rintro ((h | rfl) | h)
        · exact Or.inl h
        · exact Or.inr ⟨p, List.mem_cons_self _ _, rfl⟩
        · exact Or.inr ⟨h.choose, List.mem_cons_of_mem _ h.choose_spec.1, h.choose_spec.2⟩
      · rintro (h | ⟨q, hq, hqk⟩)
        · exact Or.inl (Or.inl h)
        · rcases List.mem_cons.mp hq with rfl | hq'
          · exact Or.inl (Or.inr hqk.symm)
          · exact Or.inr ⟨q, hq', hqk⟩

theorem mem_mapKeys (k : ℕ) (ps : List Performance) :
    k ∈ mapKeys ps ↔ ∃ p ∈ ps, p.studentId = k := by
  rw [mapKeys, mem_mapKeysAux]
  simp

theorem nodup_mapKeysAux : ∀ (ps : List Performance) (acc : List ℕ),
    acc.Nodup → (mapKeysAux acc ps).Nodup := by
  intro ps
  induction ps with
  | nil => intro acc h; simpa [mapKeysAux] using h
  | cons p ps ih =>
    intro acc h
    rw [mapKeysAux]
    by_cases hmem : p.studentId ∈ acc
    · simpa [if_pos hmem] using ih acc h
    · refine ih _ ?_
      rw [if_neg hmem]
      simp only [List.nodup_append, List.nodup_singleton, true_and, and_true, h]
      intro a ha hb
      simp only [List.mem_singleton] at hb
      exact hmem (hb ▸ ha)

theorem nodup_mapKeys (ps : List Performance) : (mapKeys ps).Nodup :=
  nodup_mapKeysAux ps [] List.nodup_nil

theorem addRanks_length : ∀ (n : ℕ) (l : List RankEntry),
    (addRanks n l).length = l.length := by
  intro n l
  induction l generalizing n with
  | nil => rfl
  | cons e l ih => simp [addRanks, ih]

theorem addRanks_map_entry : ∀ (n : ℕ) (l : List RankEntry),
    (addRanks n l).map RankedEntry.entry = l := by
  intro n l
  induction l generalizing n with
  | nil => rfl
  | cons e l ih => simp [addRanks, ih]

theorem addRanks_map_rank : ∀ (n : ℕ) (l : List RankEntry),
    (addRanks n l).map RankedEntry.rank = List.range' n l.length := by
  intro n l
  induction l generalizing n with
  | nil => rfl
  | cons e l ih => simp [addRanks, ih, List.range']

theorem mem_addRanks {e : RankedEntry} {n : ℕ} {l : List RankEntry}
    (h : e ∈ addRanks n l) : e.entry ∈ l := by
  have := List.mem_map_of_mem RankedEntry.entry h
  rwa [addRanks_map_entry] at this

theorem perm_orderedInsertB (le : RankEntry → RankEntry → Bool) (a : RankEntry) :
    ∀ (l : List RankEntry), (orderedInsertB le a l).Perm (a :: l) := by
  intro l
  induction l with
  | nil => exact List.Perm.refl _
  | cons b l ih =>
    rw [orderedInsertB]
    by_cases h : le a b
    · rw [if_pos h]
    · rw [if_neg h]
      exact (ih.cons b).trans (List.Perm.swap a b l)

theorem perm_insertionSortB (le : RankEntry → RankEntry → Bool) :
    ∀ (l : List RankEntry), (insertionSortB le l).Perm l := by
  intro l
  induction l with
  | nil => exact List.Perm.refl _
  | cons a l ih =>
    rw [insertionSortB]
    exact (perm_orderedInsertB le a _).trans (ih.cons a)

theorem mem_orderedInsertB {le : RankEntry → RankEntry → Bool} {a x : RankEntry}
    {l : List RankEntry} (h : x ∈ orderedInsertB le a l) : x = a ∨ x ∈ l := by
  have := (perm_orderedInsertB le a l).mem_iff.mp h
  simpa using this

theorem pairwise_orderedInsertB (le : RankEntry → RankEntry → Bool)
    (P : RankEntry → Prop)
    (htot : ∀ x y, le x y = true ∨ le y x = true)
    (htrans : ∀ x y z, P x → P y → P z → le x y = true → le y z = true → le x z = true)
    (a : RankEntry) (hPa : P a) :
    ∀ (l : List RankEntry), (∀ x ∈ l, P x) →
      l.Pairwise (fun x y => le x y = true) →
      (orderedInsertB le a l).Pairwise (fun x y => le x y = true) := by
  intro l
  induction l with
  | nil => intro _ _; simp [orderedInsertB]
  | cons b l ih =>
    intro hPl hl
    rw [orderedInsertB]
    rcases List.pairwise_cons.mp hl with ⟨hb, hl'⟩
    by_cases hab : le a b
    · rw [if_pos hab]
      refine List.pairwise_cons.mpr ⟨?_, hl⟩
      intro y hy
      rcases List.mem_cons.mp hy with rfl | hy'
      · exact hab
      · exact htrans a b y hPa (hPl b (List.mem_cons_self _ _))
          (hPl y (List.mem_cons_of_mem _ hy')) hab (hb y hy')
    · rw [if_neg hab]
      refine List.pairwise_cons.mpr ⟨?_, ?_⟩
      · intro y hy
        rcases mem_orderedInsertB hy with hya | hy'
        · rw [hya]
          exact (htot a b).resolve_left (by simpa using hab)
        · exact hb y hy'
      · exact ih (fun x hx => hPl x (List.mem_cons_of_mem _ hx)) hl'

theorem pairwise_insertionSortB (le : RankEntry → RankEntry → Bool)
    (P : RankEntry → Prop)
    (htot : ∀ x y, le x y = true ∨ le y x = true)
    (htrans : ∀ x y z, P x → P y → P z → le x y = true → le y z = true → le x z = true) :
    ∀ (l : List RankEntry), (∀ x ∈ l, P x) →
      (insertionSortB le l).Pairwise (fun x y => le x y = true) := by
  intro l
  induction l with
  | nil => intro _; simp [insertionSortB]
  | cons a l ih =>
    intro hPl
    rw [insertionSortB]
    refine pairwise_orderedInsertB le P htot htrans a
      (hPl a (List.mem_cons_self _ _)) _ ?_
      (ih (fun x hx => hPl x (List.mem_cons_of_mem _ hx)))
    intro x hx
    exact hPl x (List.mem_cons_of_mem _ ((perm_insertionSortB le l).mem_iff.mp hx))

theorem validMeas_some {m : Option (List Char)} (h : validMeas m = true) :
    ∃ s, m = some s ∧ s.isEmpty = false := by
  match m with
  | none => exact absurd h (by simp [validMeas])
  | some s =>
    refine ⟨s, rfl, ?_⟩
    unfold validMeas at h
    exact Bool.not_eq_true' .. |>.mp (Bool.and_elim_left h)

theorem measOr_of_valid {m : Option (List Char)} (h : validMeas m = true)
    (d d' : List Char) : measOr d m = measOr d' m := by
  rcases validMeas_some h with ⟨s, rfl, hs⟩
  simp [measOr, hs]

theorem normField_of_valid {m : Option (List Char)} (h : validMeas m = true) :
    normField m = normRunning m := by
  unfold normField normRunning
  rw [measOr_of_valid h (("0").toList) (("999999").toList)]

theorem reduceBest_eq_foldl (t : EventType) (p0 : Performance) (l : List Performance) :
    reduceBest t p0 l =
      l.foldl (fun best cur => if betterThan t cur best then cur else best) p0 := by
  unfold reduceBest
  rw [List.foldl_cons, ite_self]

theorem foldl_pick_mem (t : EventType) (S : List Performance) :
    ∀ (l : List Performance) (acc : Performance), acc ∈ S → (∀ x ∈ l, x ∈ S) →
      l.foldl (fun best cur => if betterThan t cur best then cur else best) acc ∈ S := by
  intro l
  induction l with
  | nil => intro acc hacc _; exact hacc
  | cons c l ih =>
    intro acc hacc hl
    rw [List.foldl_cons]
    by_cases hb : betterThan t c acc
    · rw [if_pos hb]
      exact ih c (hl c (List.mem_cons_self _ _)) (fun x hx => hl x (List.mem_cons_of_mem _ hx))
    · rw [if_neg hb]
      exact ih acc hacc (fun x hx => hl x (List.mem_cons_of_mem _ hx))

theorem reduceBest_mem (t : EventType) (p0 : Performance) (l : List Performance) :
    reduceBest t p0 l ∈ p0 :: l :=
  foldl_pick_mem t (p0 :: l) (p0 :: l) p0 (List.mem_cons_self _ _) (fun _ hx => hx)

theorem foldl_pick_min_running :
    ∀ (l : List Performance) (acc : Performance) (da : Decimal),
      normRunning acc.measurement = some da →
      (∀ p ∈ l, ∃ d, normRunning p.measurement = some d) →
      ∃ dr, normRunning ((l.foldl
          (fun best cur => if betterThan EventType.running cur best then cur else best)
          acc).measurement) = some dr ∧
        dr.toRat ≤ da.toRat ∧
        ∀ p ∈ l, ∀ dp, normRunning p.measurement = some dp → dr.toRat ≤ dp.toRat := by
  intro l
  induction l with
  | nil =>
    intro acc da hacc _
    exact ⟨da, hacc, le_refl _, by simp⟩
  | cons c l ih =>
    intro acc da hacc hl
    rcases hl c (List.mem_cons_self _ _) with ⟨dc, hdc⟩
    rw [List.foldl_cons]
    have hbt : betterThan EventType.running c acc =
        jsLt (normRunning c.measurement) (normRunning acc.measurement) := by
      simp [betterThan]
    by_cases hb : betterThan EventType.running c acc
    · rw [if_pos hb]
      rw [hbt, hdc, hacc] at hb
      have hlt : dc.toRat < da.toRat := (Decimal.blt_iff dc da).mp (by simpa [jsLt] using hb)
      rcases ih c dc hdc (fun p hp => hl p (List.mem_cons_of_mem _ hp)) with
        ⟨dr, hrm, hrc, hrl⟩
      refine ⟨dr, hrm, hrc.trans hlt.le, ?_⟩
      intro p hp dp hdp
      rcases List.mem_cons.mp hp with rfl | hp'
      · rw [hdp] at hdc
        exact (Option.some_injective _ hdc) ▸ hrc
      · exact hrl p hp' dp hdp
    · rw [if_neg hb]
      rw [hbt, hdc, hacc] at hb
      have hge : da.toRat ≤ dc.toRat := by
        by_contra hcon
        exact hb (by simpa [jsLt, Decimal.blt_iff] using lt_of_not_le hcon)
      rcases ih acc da hacc (fun p hp => hl p (List.mem_cons_of_mem _ hp)) with
        ⟨dr, hrm, hrc, hrl⟩
      refine ⟨dr, hrm, hrc, ?_⟩
      intro p hp dp hdp
      rcases List.mem_cons.mp hp with rfl | hp'
      · rw [hdp] at hdc
        exact (Option.some_injective _ hdc) ▸ (hrc.trans hge)
      · exact hrl p hp' dp hdp

theorem foldl_pick_max_field {t : EventType} (ht : t ≠ EventType.running) :
    ∀ (l : List Performance) (acc : Performance) (da : Decimal),
      normField acc.measurement = some da →
      (∀ p ∈ l, ∃ d, normField p.measurement = some d) →
      ∃ dr, normField ((l.foldl
          (fun best cur => if betterThan t cur best then cur else best)
          acc).measurement) = some dr ∧
        da.toRat ≤ dr.toRat ∧
        ∀ p ∈ l, ∀ dp, normField p.measurement = some dp → dp.toRat ≤ dr.toRat := by
  intro l
  induction l with
  | nil =>
    intro acc da hacc _
    exact ⟨da, hacc, le_refl _, by simp⟩
  | cons c l ih =>
    intro acc da hacc hl
    rcases hl c (List.mem_cons_self _ _) with ⟨dc, hdc⟩
    rw [List.foldl_cons]
    have hbt : betterThan t c acc =
        jsGt (normField c.measurement) (normField acc.measurement) := by
      simp [betterThan, if_neg ht]
    by_cases hb : betterThan t c acc
    · rw [if_pos hb]
      rw [hbt, hdc, hacc] at hb
      have hlt : da.toRat < dc.toRat := (Decimal.blt_iff da dc).mp (by simpa [jsGt] using hb)
      rcases ih c dc hdc (fun p hp => hl p (List.mem_cons_of_mem _ hp)) with
        ⟨dr, hrm, hrc, hrl⟩
      refine ⟨dr, hrm, hlt.le.trans hrc, ?_⟩
      intro p hp dp hdp
      rcases List.mem_cons.mp hp with rfl | hp'
      · rw [hdp] at hdc
        exact (Option.some_injective _ hdc) ▸ hrc
      · exact hrl p hp' dp hdp
    · rw [if_neg hb]
      rw [hbt, hdc, hacc] at hb
      have hge : dc.toRat ≤ da.toRat := by
        by_contra hcon
        exact hb (by simpa [jsGt, Decimal.blt_iff] using lt_of_not_le hcon)
      rcases ih acc da hacc (fun p hp => hl p (List.mem_cons_of_mem _ hp)) with
        ⟨dr, hrm, hrc, hrl⟩
      refine ⟨dr, hrm, hrc, ?_⟩
      intro p hp dp hdp
      rcases List.mem_cons.mp hp with rfl | hp'
      · rw [hdp] at hdc
        exact (Option.some_injective _ hdc) ▸ (hge.trans hrc)
      · exact hrl p hp' dp hdp

theorem entryForStudent_eq_some {t : EventType} {vps : List Performance}
    {ss : List Student} {sid : ℕ} {e : RankEntry}
    (h : entryForStudent t vps ss sid = some e) :
    ∃ p0 rest,
      ss.find? (fun s => s.id == sid) = some e.student ∧
      vps.filter (fun p => p.studentId == sid) = p0 :: rest ∧
      e.bestPerformance = measOr ("0").toList (reduceBest t p0 rest).measurement ∧
      e.numericValue = jsParseFloat (stripNonNumeric e.bestPerformance) := by
  unfold entryForStudent at h
  rcases hf : ss.find? (fun s => s.id == sid) with _ | student
  · rw [hf] at h
    exact absurd h (by simp)
  · rw [hf] at h
    rcases hg : vps.filter (fun p => p.studentId == sid) with _ | ⟨p0, rest⟩
    · rw [hg] at h
      exact absurd h (by simp)
    · rw [hg] at h
      simp only [Option.some_inj] at h
      refine ⟨p0, rest, ?_, hg, ?_, ?_⟩
      · rw [hf, ← h]
      · rw [← h]
      · rw [← h]

theorem sortKeyLe_total (a b : Option Decimal) :
    sortKeyLe a b = true ∨ sortKeyLe b a = true := by
  match a, b with
  | some x, some y =>
    simp only [sortKeyLe, Decimal.ble, decide_eq_true_iff]
    exact Nat.le_total _ _
  | some x, none => simp [sortKeyLe]
  | none, some y => simp [sortKeyLe]
  | none, none => simp [sortKeyLe]

theorem rankingLe_total (t : EventType) (a b : RankEntry) :
    rankingLe t a b = true ∨ rankingLe t b a = true := by
  unfold rankingLe
  by_cases ht : t = EventType.running
  · simpa [if_pos ht] using sortKeyLe_total a.numericValue b.numericValue
  · simpa [if_neg ht] using sortKeyLe_total b.numericValue a.numericValue

theorem sortKeyLe_some {x y : Decimal} (h : sortKeyLe (some x) (some y) = true) :
    x.toRat ≤ y.toRat :=
  (Decimal.ble_iff x y).mp (by simpa [sortKeyLe] using h)

theorem sortKeyLe_of_le {x y : Decimal} (h : x.toRat ≤ y.toRat) :
    sortKeyLe (some x) (some y) = true := by
  simpa [sortKeyLe] using (Decimal.ble_iff x y).mpr h

theorem rankingLe_trans (t : EventType) (a b c : RankEntry)
    (ha : a.numericValue.isSome = true) (hb : b.numericValue.isSome = true)
    (hc : c.numericValue.isSome = true)
    (hab : rankingLe t a b = true) (hbc : rankingLe t b c = true) :
    rankingLe t a c = true := by
  rcases Option.isSome_iff_exists.mp ha with ⟨x, hx⟩
  rcases Option.isSome_iff_exists.mp hb with ⟨y, hy⟩
  rcases Option.isSome_iff_exists.mp hc with ⟨z, hz⟩
  unfold rankingLe at hab hbc ⊢
  by_cases ht : t = EventType.running
  · rw [if_pos ht] at hab hbc ⊢
    rw [hx, hy] at hab
    rw [hy, hz] at hbc
    rw [hx, hz]
    exact sortKeyLe_of_le ((sortKeyLe_some hab).trans (sortKeyLe_some hbc))
  · rw [if_neg ht] at hab hbc ⊢
    rw [hy, hx] at hab
    rw [hz, hy] at hbc
    rw [hz, hx]
    exact sortKeyLe_of_le ((sortKeyLe_some hbc).trans (sortKeyLe_some hab))

theorem mem_group {vps : List Performance} {sid : ℕ} {p0 : Performance}
    {rest : List Performance}
    (hg : vps.filter (fun p => p.studentId == sid) = p0 :: rest) :
    ∀ q ∈ p0 :: rest, q ∈ vps ∧ q.studentId = sid := by
  intro q hq
  rw [← hg] at hq
  rcases List.mem_filter.mp hq with ⟨h1, h2⟩
  exact ⟨h1, by simpa using h2⟩

theorem entry_numericValue_spec {t : EventType} {vps : List Performance}
    {ss : List Student} {sid : ℕ} {e : RankEntry}
    (hvalid : ∀ p ∈ vps, validMeas p.measurement = true)
    (hsome : ∀ p ∈ vps, (normField p.measurement).isSome = true)
    (h : entryForStudent t vps ss sid = some e) :
    ∃ d, e.numericValue = some d ∧
      (∃ q ∈ vps, q.studentId = e.student.id ∧
        q.measurement = some e.bestPerformance ∧
        normField q.measurement = some d) ∧
      ∀ p ∈ vps, p.studentId = e.student.id →
        ∃ dp, normField p.measurement = some dp ∧
          (t = EventType.running → d.toRat ≤ dp.toRat) ∧
          (t ≠ EventType.running → dp.toRat ≤ d.toRat) := by
  rcases entryForStudent_eq_some h with ⟨p0, rest, hfind, hg, hbp, hnv⟩
  have hid : e.student.id = sid := by simpa using List.find?_some hfind
  have hgrp := mem_group hg
  have hbestmem : reduceBest t p0 rest ∈ p0 :: rest := reduceBest_mem t p0 rest
  have hbestvps : reduceBest t p0 rest ∈ vps := (hgrp _ hbestmem).1
  have hbestvalid : validMeas (reduceBest t p0 rest).measurement = true :=
    hvalid _ hbestvps
  -- the entry's numeric value is normField of the best row
  have hnv' : e.numericValue = normField (reduceBest t p0 rest).measurement := by
    rw [hnv, hbp]; rfl
  -- the best row is one of the student's own valid performances and
  -- carries the entry's value string
  have hqs : (reduceBest t p0 rest).studentId = e.student.id := by
    rw [hid]
    exact (hgrp _ hbestmem).2
  rcases validMeas_some hbestvalid with ⟨s, hsm, hse⟩
  have hbps : e.bestPerformance = s := by
    rw [hbp, hsm]
    simp [measOr, hse]
  have hqm : (reduceBest t p0 rest).measurement = some e.bestPerformance := by
    rw [hsm, hbps]
  by_cases ht : t = EventType.running
  · -- running: convert everything to normRunning and use the min lemma
    subst ht
    have h0some : ∃ d0, normRunning p0.measurement = some d0 := by
      have := hsome p0 (hgrp p0 (List.mem_cons_self _ _)).1
      rw [normField_of_valid (hvalid p0 (hgrp p0 (List.mem_cons_self _ _)).1)] at this
      exact Option.isSome_iff_exists.mp this
    rcases h0some with ⟨d0, hd0⟩
    have hrsome : ∀ p ∈ rest, ∃ d, normRunning p.measurement = some d := by
      intro p hp
      have hm := (hgrp p (List.mem_cons_of_mem _ hp)).1
      have := hsome p hm
      rw [normField_of_valid (hvalid p hm)] at this
      exact Option.isSome_iff_exists.mp this
    have hfold := foldl_pick_min_running rest p0 d0 hd0 hrsome
    rw [← reduceBest_eq_foldl] at hfold
    rcases hfold with ⟨dr, hdr, hdr0, hdrl⟩
    refine ⟨dr, ?_, ⟨reduceBest EventType.running p0 rest, hbestvps, hqs, hqm, ?_⟩, ?_⟩
    · rw [hnv', normField_of_valid hbestvalid, hdr]
    · rw [normField_of_valid hbestvalid]
      exact hdr
    · intro p hp hpid
      have hpg : p ∈ p0 :: rest := by
        rw [← hg]
        refine List.mem_filter.mpr ⟨hp, ?_⟩
        simp [hpid, hid]
      have hpvalid := hvalid p hp
      rcases Option.isSome_iff_exists.mp (hsome p hp) with ⟨dp, hdp⟩
      have hdpr : normRunning p.measurement = some dp := by
        rw [← normField_of_valid hpvalid]; exact hdp
      refine ⟨dp, hdp, fun _ => ?_, fun hne => absurd rfl hne⟩
      rcases List.mem_cons.mp hpg with rfl | hpr
      · rw [hdpr] at hd0
        exact (Option.some_injective _ hd0) ▸ hdr0
      · exact hdrl p hpr dp hdpr
  · -- field: use the max lemma directly on normField
    have h0some : ∃ d0, normField p0.measurement = some d0 :=
      Option.isSome_iff_exists.mp (hsome p0 (hgrp p0 (List.mem_cons_self _ _)).1)
    rcases h0some with ⟨d0, hd0⟩
    have hrsome : ∀ p ∈ rest, ∃ d, normField p.measurement = some d := by
      intro p hp
      exact Option.isSome_iff_exists.mp (hsome p (hgrp p (List.mem_cons_of_mem _ hp)).1)
    have hfold := foldl_pick_max_field ht rest p0 d0 hd0 hrsome
    rw [← reduceBest_eq_foldl] at hfold
    rcases hfold with ⟨dr, hdr, hdr0, hdrl⟩
    refine ⟨dr, ?_, ⟨reduceBest t p0 rest, hbestvps, hqs, hqm, hdr⟩, ?_⟩
    · rw [hnv', hdr]
    · intro p hp hpid
      have hpg : p ∈ p0 :: rest := by
        rw [← hg]
        refine List.mem_filter.mpr ⟨hp, ?_⟩
        simp [hpid, hid]
      rcases Option.isSome_iff_exists.mp (hsome p hp) with ⟨dp, hdp⟩
      refine ⟨dp, hdp, fun heq => absurd heq ht, fun _ => ?_⟩
      rcases List.mem_cons.mp hpg with rfl | hpr
      · rw [hdp] at hd0
        exact (Option.some_injective _ hd0) ▸ hdr0
      · exact hdrl p hpr dp hdp

theorem addRanks_get_entry : ∀ (n : ℕ) (l : List RankEntry) (i : ℕ)
    (h : i < (addRanks n l).length) (h' : i < l.length),
    ((addRanks n l).get ⟨i, h⟩).entry = l.get ⟨i, h'⟩ := by
  intro n l
  induction l generalizing n with
  | nil => intro i h h'; exact absurd h' (Nat.not_lt_zero i)
  | cons e l ih =>
    intro i h h'
    cases i with
    | zero => rfl
    | succ j =>
      have hj : j < (addRanks (n + 1) l).length := by
        simpa [addRanks, Nat.succ_lt_succ_iff] using h
      exact ih (n + 1) j hj (Nat.succ_lt_succ_iff.mp h')

theorem rankingLe_le_of_running {t : EventType} {a b : RankEntry} {x y : Decimal}
    (ht : t = EventType.running) (hx : a.numericValue = some x)
    (hy : b.numericValue = some y) (h : rankingLe t a b = true) : x.toRat ≤ y.toRat := by
  unfold rankingLe at h
  rw [if_pos ht, hx, hy] at h
  exact sortKeyLe_some h

theorem rankingLe_le_of_field {t : EventType} {a b : RankEntry} {x y : Decimal}
    (ht : t ≠ EventType.running) (hx : a.numericValue = some x)
    (hy : b.numericValue = some y) (h : rankingLe t a b = true) : y.toRat ≤ x.toRat := by
  unfold rankingLe at h
  rw [if_neg ht, hx, hy] at h
  exact sortKeyLe_some h

/-- Claim C1: for every event and every list of performances, the ranking
produced by `calculateRankings` has length at most the number of distinct
students having at least one non-blank measurement for the event (the
`mapKeys` list, shown to enumerate exactly those students without
repetition), its ranks are exactly `1..N` in order with no gaps or
duplicates, a student with zero non-blank performances never appears in
it, and an input with no valid performances yields an empty ranking. -/
theorem ranking_wellformed (event : Event) (performances : List Performance)
    (students : List Student) :
    (calculateRankings event performances students).length ≤
      (mapKeys (performances.filter (fun p => validMeas p.measurement))).length
    ∧ (mapKeys (performances.filter (fun p => validMeas p.measurement))).Nodup
    ∧ (∀ k, k ∈ mapKeys (performances.filter (fun p => validMeas p.measurement)) ↔
        ∃ p ∈ performances, validMeas p.measurement = true ∧ p.studentId = k)
    ∧ (calculateRankings event performances students).map RankedEntry.rank =
        List.range' 1 (calculateRankings event performances students).length
    ∧ (∀ e ∈ calculateRankings event performances students,
        ∃ p ∈ performances, validMeas p.measurement = true ∧ p.studentId = e.entry.student.id)
    ∧ (performances.filter (fun p => validMeas p.measurement) = [] →
        calculateRankings event performances students = []) := by
  have hlen : (calculateRankings event performances students).length ≤
      (mapKeys (performances.filter (fun p => validMeas p.measurement))).length := by
    unfold calculateRankings
    rw [addRanks_length, (perm_insertionSortB _ _).length_eq]
    exact List.length_filterMap_le _ _
  refine ⟨hlen, nodup_mapKeys _, ?_, ?_, ?_, ?_⟩
  · intro k
    rw [mem_mapKeys]
    constructor
    · rintro ⟨p, hp, hpk⟩
      rcases List.mem_filter.mp hp with ⟨hp', hv⟩
      exact ⟨p, hp', hv, hpk⟩
    · rintro ⟨p, hp, hv, hpk⟩
      exact ⟨p, List.mem_filter.mpr ⟨hp, hv⟩, hpk⟩
  · conv_rhs => rw [show (calculateRankings event performances students).length =
      (insertionSortB (rankingLe event.type)
        ((mapKeys (performances.filter (fun p => validMeas p.measurement))).filterMap
          (entryForStudent event.type (performances.filter (fun p => validMeas p.measurement))
            students))).length from by unfold calculateRankings; rw [addRanks_length]]
    unfold calculateRankings
    exact addRanks_map_rank 1 _
  · intro e he
    unfold calculateRankings at he
    have h1 := mem_addRanks he
    have h2 := (perm_insertionSortB _ _).mem_iff.mp h1
    rcases List.mem_filterMap.mp h2 with ⟨sid, hsid, hsome⟩
    rcases entryForStudent_eq_some hsome with ⟨p0, rest, hfind, _, _, _⟩
    have hid : e.entry.student.id = sid := by
      have := List.find?_some hfind
      simpa using this
    rcases (mem_mapKeys sid _).mp hsid with ⟨p, hp, hpk⟩
    rcases List.mem_filter.mp hp with ⟨hp', hv⟩
    exact ⟨p, hp', hv, by rw [hid, ← hpk]⟩
  · intro h
    unfold calculateRankings
    rw [h]
    rfl


/-- Claim C2 (amended): provided every non-blank measurement actually
parses to a number, each ranking entry's value is the student's best
performance under the event-type rule: the entry's measurement string and
numeric value are those of one of the student's own valid performances
(attainment), and that value bounds every valid performance of the
student (numerically smallest normalized measurement for running, largest
for any field event); moreover adjacent entries are ordered accordingly
(`≤` on normalized values for running, `≥` for field events).  Without
the parseability proviso the claim fails: see the counterexample, where a
non-numeric measurement yields NaN. -/
theorem ranking_best_and_sorted (event : Event) (performances : List Performance)
    (students : List Student)
    (H : ∀ p ∈ performances, validMeas p.measurement = true →
      (normField p.measurement).isSome = true) :
    (∀ e ∈ calculateRankings event performances students,
      ∃ d, e.entry.numericValue = some d ∧
        (∃ q ∈ performances, validMeas q.measurement = true ∧
          q.studentId = e.entry.student.id ∧
          q.measurement = some e.entry.bestPerformance ∧
          normField q.measurement = some d) ∧
        ∀ p ∈ performances, validMeas p.measurement = true →
          p.studentId = e.entry.student.id →
          ∃ dp, normField p.measurement = some dp ∧
            (event.type = EventType.running → d.toRat ≤ dp.toRat) ∧
            (event.type ≠ EventType.running → dp.toRat ≤ d.toRat))
    ∧ (∀ (i : ℕ) (hi1 : i < (calculateRankings event performances students).length)
        (hi2 : i + 1 < (calculateRankings event performances students).length),
        ∃ x y,
          ((calculateRankings event performances students).get ⟨i, hi1⟩).entry.numericValue
            = some x ∧
          ((calculateRankings event performances students).get ⟨i + 1, hi2⟩).entry.numericValue
            = some y ∧
          (event.type = EventType.running → x.toRat ≤ y.toRat) ∧
          (event.type ≠ EventType.running → y.toRat ≤ x.toRat)) := by
  have hvalid : ∀ p ∈ performances.filter (fun p => validMeas p.measurement),
      validMeas p.measurement = true := fun p hp => (List.mem_filter.mp hp).2
  have hsome : ∀ p ∈ performances.filter (fun p => validMeas p.measurement),
      (normField p.measurement).isSome = true := fun p hp =>
    H p (List.mem_filter.mp hp).1 (List.mem_filter.mp hp).2
  have hspec : ∀ e ∈ (mapKeys (performances.filter (fun p => validMeas p.measurement))).filterMap
      (entryForStudent event.type (performances.filter (fun p => validMeas p.measurement))
        students),
      ∃ d, e.numericValue = some d ∧
        (∃ q ∈ performances.filter (fun p => validMeas p.measurement),
          q.studentId = e.student.id ∧
          q.measurement = some e.bestPerformance ∧
          normField q.measurement = some d) ∧
        ∀ p ∈ performances.filter (fun p => validMeas p.measurement),
          p.studentId = e.student.id →
          ∃ dp, normField p.measurement = some dp ∧
            (event.type = EventType.running → d.toRat ≤ dp.toRat) ∧
            (event.type ≠ EventType.running → dp.toRat ≤ d.toRat) := by
    intro e he
    rcases List.mem_filterMap.mp he with ⟨sid, _, hsid⟩
    exact entry_numericValue_spec hvalid hsome hsid
  have hPent : ∀ e ∈ (mapKeys (performances.filter (fun p => validMeas p.measurement))).filterMap
      (entryForStudent event.type (performances.filter (fun p => validMeas p.measurement))
        students),
      e.numericValue.isSome = true := by
    intro e he
    rcases hspec e he with ⟨d, hd, _, _⟩
    simp [hd]
  constructor
  · intro e he
    unfold calculateRankings at he
    have h1 := mem_addRanks he
    have h2 := (perm_insertionSortB _ _).mem_iff.mp h1
    rcases hspec _ h2 with ⟨d, hd, ⟨q, hq, hqs, hqm, hqn⟩, hrest⟩
    refine ⟨d, hd, ⟨q, (List.mem_filter.mp hq).1, (List.mem_filter.mp hq).2,
      hqs, hqm, hqn⟩, ?_⟩
    intro p hp hv hpid
    exact hrest p (List.mem_filter.mpr ⟨hp, hv⟩) hpid
  · intro i hi1 hi2
    have hpw := pairwise_insertionSortB (rankingLe event.type)
      (fun en => en.numericValue.isSome = true)
      (rankingLe_total event.type)
      (fun x y z hx hy hz => rankingLe_trans event.type x y z hx hy hz)
      ((mapKeys (performances.filter (fun p => validMeas p.measurement))).filterMap
        (entryForStudent event.type (performances.filter (fun p => validMeas p.measurement))
          students))
      hPent
    have hlen1 : i < (insertionSortB (rankingLe event.type)
        ((mapKeys (performances.filter (fun p => validMeas p.measurement))).filterMap
          (entryForStudent event.type (performances.filter (fun p => validMeas p.measurement))
            students))).length := by
      unfold calculateRankings at hi1
      rwa [addRanks_length] at hi1
    have hlen2 : i + 1 < (insertionSortB (rankingLe event.type)
        ((mapKeys (performances.filter (fun p => validMeas p.measurement))).filterMap
          (entryForStudent event.type (performances.filter (fun p => validMeas p.measurement))
            students))).length := by
      unfold calculateRankings at hi2
      rwa [addRanks_length] at hi2
    have hadj := List.pairwise_iff_get.mp hpw ⟨i, hlen1⟩ ⟨i + 1, hlen2⟩
      (Fin.mk_lt_mk.mpr (Nat.lt_succ_self i))
    have hmem1 := (perm_insertionSortB (rankingLe event.type) _).mem_iff.mp
      (List.get_mem _ i hlen1)
    have hmem2 := (perm_insertionSortB (rankingLe event.type) _).mem_iff.mp
      (List.get_mem _ (i + 1) hlen2)
    rcases Option.isSome_iff_exists.mp (hPent _ hmem1) with ⟨x, hx⟩
    rcases Option.isSome_iff_exists.mp (hPent _ hmem2) with ⟨y, hy⟩
    have hget1 : ((calculateRankings event performances students).get ⟨i, hi1⟩).entry =
        (insertionSortB (rankingLe event.type)
          ((mapKeys (performances.filter (fun p => validMeas p.measurement))).filterMap
            (entryForStudent event.type
              (performances.filter (fun p => validMeas p.measurement)) students))).get
          ⟨i, hlen1⟩ := by
      unfold calculateRankings
      exact addRanks_get_entry 1 _ i _ hlen1
    have hget2 : ((calculateRankings event performances students).get ⟨i + 1, hi2⟩).entry =
        (insertionSortB (rankingLe event.type)
          ((mapKeys (performances.filter (fun p => validMeas p.measurement))).filterMap
            (entryForStudent event.type
              (performances.filter (fun p => validMeas p.measurement)) students))).get
          ⟨i + 1, hlen2⟩ := by
      unfold calculateRankings
      exact addRanks_get_entry 1 _ (i + 1) _ hlen2
    refine ⟨x, y, by rw [hget1, hx], by rw [hget2, hy], ?_, ?_⟩
    · intro ht
      exact rankingLe_le_of_running ht hx hy hadj
    · intro ht
      exact rankingLe_le_of_field ht hx hy hadj

/-- Claim C10: `calculateRankings` silently excludes any performance whose
`studentId` has no matching student in the supplied list; every student
appearing in the output is a member of the input student list. -/
theorem ranking_students_from_input (event : Event) (performances : List Performance)
    (students : List Student) :
    ∀ e ∈ calculateRankings event performances students, e.entry.student ∈ students := by
  intro e he
  unfold calculateRankings at he
  have h1 := mem_addRanks he
  have h2 := (perm_insertionSortB _ _).mem_iff.mp h1
  rcases List.mem_filterMap.mp h2 with ⟨sid, _, hsome⟩
  rcases entryForStudent_eq_some hsome with ⟨p0, rest, hfind, _, _, _⟩
  exact List.mem_of_find?_eq_some hfind

/-- Counterexample to claim C2 as stated: for a running event where
student A recorded the non-blank but non-numeric measurement "abc" and
then "5", the single ranking entry's value is "abc", whose normalization
is NaN (`none`) — not the student's numerically smallest normalized
measurement (5, from the valid performance "5" of the same student). -/
theorem ranking_nan_counterexample :
    (calculateRankings wEventRun wPerfsAbc [wStudentA]).map
      (fun e => (e.entry.bestPerformance, e.entry.numericValue, e.rank)) =
      [((("abc").toList), none, 1)]
    ∧ wPerfsAbc.get ⟨1, by decide⟩ ∈ wPerfsAbc
    ∧ validMeas (wPerfsAbc.get ⟨1, by decide⟩).measurement = true
    ∧ normField (wPerfsAbc.get ⟨1, by decide⟩).measurement = some ⟨5, 0⟩ := by
  refine ⟨by decide, by decide, by decide, by decide⟩

/-- Counterexample to claim C3 as stated: the non-empty, fully
non-numeric measurement "abc" normalizes to NaN (`none`) under both
event-type rules — not to the large-number sentinel (999999) and not to
zero.  The sentinel substitution (`|| "999999"` / `|| "0"`) only fires
for a null or empty string, before stripping. -/
theorem normalization_counterexample :
    normRunning (some (("abc").toList)) = none
    ∧ normField (some (("abc").toList)) = none
    ∧ (none : Option Decimal) ≠ some ⟨999999, 0⟩
    ∧ (none : Option Decimal) ≠ some ⟨0, 0⟩ := by
  refine ⟨by decide, by decide, by decide, by decide⟩

/-- Claim C3 (amended): normalization strips all characters other than
digits and the decimal point and parses the remainder; a null or EMPTY
measurement string is first replaced by the sentinel "999999" (running)
or "0" (field), so it normalizes to that sentinel; a non-empty string is
stripped and parsed as-is, so a fully non-numeric non-empty string
yields NaN, not a sentinel. -/
theorem normalization_amended (s : List Char) :
    normRunning none = some ⟨999999, 0⟩
    ∧ normRunning (some []) = some ⟨999999, 0⟩
    ∧ normField none = some ⟨0, 0⟩
    ∧ normField (some []) = some ⟨0, 0⟩
    ∧ (s.isEmpty = false →
        normRunning (some s) = jsParseFloat (stripNonNumeric s)
        ∧ normField (some s) = jsParseFloat (stripNonNumeric s)) := by
  refine ⟨by decide, by decide, by decide, by decide, ?_⟩
  intro hs
  constructor
  · simp [normRunning, measOr, hs]
  · simp [normField, measOr, hs]

theorem normalization_amended_witness :
    normRunning (some (("12.5s").toList)) = jsParseFloat (stripNonNumeric (("12.5s").toList))
    ∧ normField (some (("12.5s").toList)) = jsParseFloat (stripNonNumeric (("12.5s").toList)) :=
  (normalization_amended (("12.5s").toList)).2.2.2.2 (by decide)

/-- Claim C4 (code bug): the `personalBest` flag is never computed at
write time.  `recordPerformance` stores exactly the flag supplied in the
insert payload, and the client's save mutation never sends one, so the
schema default `false` is stored — even for a student's first-ever
performance of an event type, which the spec requires to be flagged
`true`. -/
theorem personalBest_never_computed :
    (∀ (perfs : List Performance) (p : InsertPerformance),
      ((recordPerformance perfs p).2).personalBest = p.personalBest)
    ∧ (∀ (perfs : List Performance) (sid eid : ℕ) (m : List Char) (r : ℕ),
      ((clientSavePerformance perfs sid eid m r).2).personalBest = false)
    ∧ ((clientSavePerformance [] 1 10 (("12.5").toList) 1).2).personalBest = false := by
  exact ⟨fun _ _ => rfl, fun _ _ _ _ _ => rfl, rfl⟩

/-- Counterexample to claim C5 as stated: a direct
`PUT /api/events/:id` request with `{status: "completed"}` by the owning
coach on an in-progress event with ZERO performance records succeeds and
changes the stored status to `completed` — no validation error, state
changed. -/
theorem finish_guard_counterexample :
    (putEventHandler wDbNoPerfs wCoach 20 finishEventUpdate).2 =
      PutEventResult.ok ⟨20, ("Sprint").toList, EventType.running, 0, 1, 7,
        EventStatus.completed⟩
    ∧ ((putEventHandler wDbNoPerfs wCoach 20 finishEventUpdate).1.events.map Event.status) =
      [EventStatus.completed]
    ∧ wDbNoPerfs.performances.length = 0
    ∧ wEventInProgress.status = EventStatus.in_progress := by
  refine ⟨by decide, by decide, by decide, by decide⟩

/-- Claim C5 (amended): the zero-performance guard exists only
client-side.  `handleFinishEvent` refuses to issue the completion
request when the event has zero recorded performances and issues
`{status: "completed"}` otherwise; the server `PUT /api/events/:id`
handler applies a completion request from the owning coach
unconditionally, never consulting the performance table. -/
theorem finish_event_guard (ps : List Performance) (db : DB) (user : User) (id : ℕ) :
    handleFinishEvent [] = FinishOutcome.blockedNoPerformances
    ∧ (ps ≠ [] → handleFinishEvent ps = FinishOutcome.requested finishEventUpdate)
    ∧ (∀ ev, db.events.find? (fun e => e.id == id) = some ev →
        user.role ≠ Role.parent → ev.coachId = user.id →
        (putEventHandler db user id finishEventUpdate).2 =
          PutEventResult.ok { ev with status := EventStatus.completed }) := by
  refine ⟨rfl, ?_, ?_⟩
  · intro hne
    unfold handleFinishEvent
    rw [if_pos (List.length_pos.mpr hne)]
  · intro ev hfind hrole hcoach
    simp [putEventHandler, hfind, hrole, hcoach, applyEventUpdate, finishEventUpdate]

theorem finish_event_guard_witness :
    handleFinishEvent wPerfsRun = FinishOutcome.requested finishEventUpdate
    ∧ (putEventHandler wDbNoPerfs wCoach 20 finishEventUpdate).2 =
      PutEventResult.ok { wEventInProgress with status := EventStatus.completed } :=
  ⟨(finish_event_guard wPerfsRun wDbNoPerfs wCoach 20).2.1 (by decide),
   (finish_event_guard wPerfsRun wDbNoPerfs wCoach 20).2.2 wEventInProgress
     (by decide) (by decide) (by decide)⟩

/-- Counterexample to claim C7 as stated: the exposed
`PUT /api/events/:id` operation moves a `completed` event back to
`planned` — the owning coach's update `{status: "planned"}` succeeds and
the stored status regresses. -/
theorem status_regression_counterexample :
    ((putEventHandler wDbCompleted wCoach 30 backToPlanned).1.events.map Event.status) =
      [EventStatus.planned]
    ∧ (putEventHandler wDbCompleted wCoach 30 backToPlanned).2 =
      PutEventResult.ok ⟨30, ("Meet").toList, EventType.running, 0, 1, 7,
        EventStatus.planned⟩
    ∧ wEventCompleted.status = EventStatus.completed
    ∧ statusRank EventStatus.planned < statusRank EventStatus.completed := by
  refine ⟨by decide, by decide, by decide, by decide⟩

/-- Claim C7 (amended): the event-update path passes any requested
status straight through with no transition validation (so backward moves
are possible via the API); only the concrete UI operations move forward:
`startEventMutation` sends `in_progress` (a forward move from
`planned`), and `finishEventMutation` sends `completed` (a forward move
from `in_progress`). -/
theorem event_status_passthrough (ev : Event) (s : EventStatus) (u : EventUpdate) :
    (u.status = some s → (applyEventUpdate ev u).status = s)
    ∧ (u.status = none → (applyEventUpdate ev u).status = ev.status)
    ∧ (ev.status = EventStatus.planned →
        statusRank ev.status < statusRank (applyEventUpdate ev startEventUpdate).status)
    ∧ (ev.status = EventStatus.in_progress →
        statusRank ev.status < statusRank (applyEventUpdate ev finishEventUpdate).status) := by
  refine ⟨?_, ?_, ?_, ?_⟩
  · intro h
    unfold applyEventUpdate
    rw [h]
    rfl
  · intro h
    unfold applyEventUpdate
    rw [h]
    rfl
  · intro h
    rw [h]
    simp only [applyEventUpdate, startEventUpdate, Option.getD_some, statusRank]
    decide
  · intro h
    rw [h]
    simp only [applyEventUpdate, finishEventUpdate, Option.getD_some, statusRank]
    decide

theorem event_status_passthrough_witness :
    (applyEventUpdate wEventCompleted backToPlanned).status = EventStatus.planned
    ∧ statusRank wEventInProgress.status <
        statusRank (applyEventUpdate wEventInProgress finishEventUpdate).status :=
  ⟨(event_status_passthrough wEventCompleted EventStatus.planned backToPlanned).1 rfl,
   (event_status_passthrough wEventInProgress EventStatus.planned backToPlanned).2.2.2 rfl⟩

/-- Claim C9 (code bug): the delete path actually wired into the app —
`DatabaseStorage.deleteEvent` in storage.ts, reached through the
`storage` singleton that routes.ts imports — deletes only the event row
and never touches the performance table, so every performance row of the
deleted event survives; at the failing input (an event with one recorded
performance) the orphaned row remains.  The cascade the spec describes
exists in the repository only in the unused `PostgresStorage.deleteEvent`
variant, which does remove both. -/
theorem deleteEvent_cascade_divergence :
    (∀ (db : DB) (id : ℕ), (databaseDeleteEvent db id).performances = db.performances)
    ∧ (∀ (db : DB) (id : ℕ) (e : Event),
        e ∈ (databaseDeleteEvent db id).events ↔ e ∈ db.events ∧ e.id ≠ id)
    ∧ (databaseDeleteEvent wDbWithPerf 10).events = []
    ∧ (databaseDeleteEvent wDbWithPerf 10).performances.map Performance.eventId = [10]
    ∧ (∀ (db : DB) (id : ℕ) (p : Performance),
        p ∈ (postgresDeleteEvent db id).performances ↔
          p ∈ db.performances ∧ p.eventId ≠ id)
    ∧ (postgresDeleteEvent wDbWithPerf 10).performances = [] := by
  refine ⟨fun db id => rfl, ?_, by decide, by decide, ?_, by decide⟩
  · intro db id e
    unfold databaseDeleteEvent
    rw [List.mem_filter]
    simp
  · intro db id p
    unfold postgresDeleteEvent
    rw [List.mem_filter]
    simp

theorem attendanceKey_update_row (a : InsertAttendance) (r : Attendance) (sid d : ℕ) :
    attendanceKey sid d (if attendanceKey a.studentId a.date r then
      { r with present := a.present, late := a.late, coachId := a.coachId } else r) =
    attendanceKey sid d r := by
  by_cases h : attendanceKey a.studentId a.date r
  · rw [if_pos h]
    rfl
  · rw [if_neg h]

theorem keyCount_map_update (db : List Attendance) (a : InsertAttendance) (sid d : ℕ) :
    keyCount (db.map (fun r => if attendanceKey a.studentId a.date r then
      { r with present := a.present, late := a.late, coachId := a.coachId } else r)) sid d
    = keyCount db sid d := by
  unfold keyCount
  rw [List.filter_map, List.length_map]
  congr 1
  apply List.filter_congr
  intro x _
  exact attendanceKey_update_row a x sid d

theorem keyCount_append_single (db : List Attendance) (row : Attendance) (sid d : ℕ) :
    keyCount (db ++ [row]) sid d =
      keyCount db sid d + if attendanceKey sid d row then 1 else 0 := by
  unfold keyCount
  rw [List.filter_append, List.length_append]
  congr 1
  by_cases h : attendanceKey sid d row
  · simp [h]
  · simp [h]

theorem keyCount_upsert_le (db : List Attendance) (a : InsertAttendance) (sid d : ℕ)
    (h : keyCount db sid d ≤ 1) : keyCount (upsertAttendance db a) sid d ≤ 1 := by
  unfold upsertAttendance
  by_cases hany : db.any (attendanceKey a.studentId a.date)
  · rw [if_pos hany, keyCount_map_update]
    exact h
  · rw [if_neg hany, keyCount_append_single]
    by_cases hk : attendanceKey sid d
        (⟨a.studentId, a.date, a.present, a.late, a.coachId⟩ : Attendance)
    · have hkey : a.studentId = sid ∧ a.date = d := by
        unfold attendanceKey at hk
        simpa using hk
      have h0 : keyCount db sid d = 0 := by
        unfold keyCount
        rw [List.length_eq_zero]
        rw [List.filter_eq_nil_iff]
        intro r hr hkr
        have : db.any (attendanceKey a.studentId a.date) = true := by
          rw [List.any_eq_true]
          refine ⟨r, hr, ?_⟩
          unfold attendanceKey at hkr ⊢
          rw [hkey.1, hkey.2]
          exact hkr
        exact hany this
      rw [h0, if_pos hk]
    · rw [if_neg hk]
      simpa using h

theorem keyCount_markAttendance_le :
    ∀ (l : List InsertAttendance) (db : List Attendance),
      (∀ sid d, keyCount db sid d ≤ 1) →
      ∀ sid d, keyCount (markAttendance db l) sid d ≤ 1 := by
  intro l
  induction l with
  | nil => intro db hdb sid d; exact hdb sid d
  | cons a l ih =>
    intro db hdb sid d
    have : markAttendance db (a :: l) = markAttendance (upsertAttendance db a) l := rfl
    rw [this]
    exact ih (upsertAttendance db a)
      (fun sid' d' => keyCount_upsert_le db a sid' d' (hdb sid' d')) sid d

theorem upsert_filter_key (db : List Attendance) (a : InsertAttendance)
    (h : keyCount db a.studentId a.date ≤ 1) :
    (upsertAttendance db a).filter (attendanceKey a.studentId a.date) =
      [⟨a.studentId, a.date, a.present, a.late, a.coachId⟩] := by
  unfold upsertAttendance
  by_cases hany : db.any (attendanceKey a.studentId a.date)
  · rw [if_pos hany]
    rw [List.filter_map]
    have hc : db.filter (attendanceKey a.studentId a.date ∘ fun r =>
        if attendanceKey a.studentId a.date r then
          { r with present := a.present, late := a.late, coachId := a.coachId } else r) =
        db.filter (attendanceKey a.studentId a.date) := by
      apply List.filter_congr
      intro x _
      exact attendanceKey_update_row a x a.studentId a.date
    rw [hc]
    have hpos : 0 < (db.filter (attendanceKey a.studentId a.date)).length := by
      rcases List.any_eq_true.mp hany with ⟨r, hr, hkr⟩
      exact List.length_pos.mpr (List.ne_nil_of_mem (List.mem_filter.mpr ⟨hr, hkr⟩))
    have hone : (db.filter (attendanceKey a.studentId a.date)).length = 1 := by
      unfold keyCount at h
      omega
    rcases List.length_eq_one.mp hone with ⟨r, hr⟩
    rw [hr]
    have hrmem : r ∈ db.filter (attendanceKey a.studentId a.date) := by
      rw [hr]; exact List.mem_singleton_self r
    have hkr : attendanceKey a.studentId a.date r = true :=
      (List.mem_filter.mp hrmem).2
    have hrs : r.studentId = a.studentId ∧ r.date = a.date := by
      unfold attendanceKey at hkr
      simpa using hkr
    rw [List.map_singleton, if_pos hkr]
    have : ({ r with present := a.present, late := a.late, coachId := a.coachId } :
        Attendance) = ⟨a.studentId, a.date, a.present, a.late, a.coachId⟩ := by
      rw [Attendance.mk.injEq]
      exact ⟨hrs.1, hrs.2, rfl, rfl, rfl⟩
    rw [this]
  · rw [if_neg hany]
    rw [List.filter_append]
    have h1 : db.filter (attendanceKey a.studentId a.date) = [] := by
      rw [List.filter_eq_nil_iff]
      intro r hr hkr
      exact (Bool.not_eq_true _).mpr (Bool.eq_false_iff.mpr
        (fun hh => hany (List.any_eq_true.mpr ⟨r, hr, hh⟩))) hkr
    rw [h1]
    simp [attendanceKey]

/-- Claim C8: starting from a table with at most one row per
(student, date) key, any sequence of `markAttendance` calls preserves
that uniqueness, and an upsert leaves exactly one row for its key whose
`present`/`late` (and `coachId`) are those of the write — so marking the
same (student, date) twice yields exactly one row reflecting the latest
write. -/
theorem attendance_upsert_semantics (db : List Attendance)
    (hdb : ∀ sid d, keyCount db sid d ≤ 1) :
    (∀ (l : List InsertAttendance) (sid d : ℕ), keyCount (markAttendance db l) sid d ≤ 1)
    ∧ (∀ a : InsertAttendance,
        (upsertAttendance db a).filter (attendanceKey a.studentId a.date) =
          [⟨a.studentId, a.date, a.present, a.late, a.coachId⟩])
    ∧ (∀ a1 a2 : InsertAttendance, a1.studentId = a2.studentId → a1.date = a2.date →
        (markAttendance db [a1, a2]).filter (attendanceKey a2.studentId a2.date) =
          [⟨a2.studentId, a2.date, a2.present, a2.late, a2.coachId⟩]) := by
  refine ⟨fun l => keyCount_markAttendance_le l db hdb, ?_, ?_⟩
  · intro a
    exact upsert_filter_key db a (hdb a.studentId a.date)
  · intro a1 a2 _ _
    have hstep : markAttendance db [a1, a2] =
        upsertAttendance (upsertAttendance db a1) a2 := rfl
    rw [hstep]
    exact upsert_filter_key (upsertAttendance db a1) a2
      (keyCount_upsert_le db a1 a2.studentId a2.date (hdb a2.studentId a2.date))

theorem attendance_upsert_witness :
    (markAttendance [] [⟨1, 5, true, false, 7⟩, ⟨1, 5, false, true, 7⟩]).filter
      (attendanceKey 1 5) = [⟨1, 5, false, true, 7⟩] :=
  (attendance_upsert_semantics [] (by intro sid d; simp [keyCount])).2.2
    ⟨1, 5, true, false, 7⟩ ⟨1, 5, false, true, 7⟩ rfl rfl

theorem claimInvite_fst (db : List ParentInvite) (j u n : ℕ) :
    (claimInvite db j u n).1 = db.map (fun inv =>
      if inv.id == j && !inv.claimed then claimRowUpdate u n inv else inv) := rfl

theorem claimInvite_snd (db : List ParentInvite) (j u n : ℕ) :
    (claimInvite db j u n).2 =
      ((db.filter (fun inv => inv.id == j && !inv.claimed)).head?).map
        (claimRowUpdate u n) := rfl

theorem claimInvite_eq_of_allClaimed {db : List ParentInvite} {j : ℕ} (u n : ℕ)
    (h : ∀ inv ∈ db, inv.id = j → inv.claimed = true) :
    claimInvite db j u n = (db, none) := by
  have hcond : ∀ inv ∈ db, (inv.id == j && !inv.claimed) = false := by
    intro inv hmem
    by_cases hid : inv.id = j
    · simp [hid, h inv hmem hid]
    · simp [hid]
  unfold claimInvite
  rw [Prod.mk.injEq]
  constructor
  · have : ∀ inv ∈ db, (if inv.id == j && !inv.claimed
        then claimRowUpdate u n inv else inv) = inv := by
      intro inv hmem
      rw [hcond inv hmem]
      rfl
    calc db.map (fun inv => if inv.id == j && !inv.claimed
          then claimRowUpdate u n inv else inv)
        = db.map id := List.map_congr_left this
      _ = db := List.map_id db
  · have hfil : db.filter (fun inv => inv.id == j && !inv.claimed) = [] := by
      rw [List.filter_eq_nil_iff]
      intro inv hmem
      simp [hcond inv hmem]
    rw [hfil]
    rfl

theorem claimInvite_allClaimed_after (db : List ParentInvite) (j u n : ℕ) :
    ∀ inv' ∈ (claimInvite db j u n).1, inv'.id = j → inv'.claimed = true := by
  intro inv' hmem hid
  rw [claimInvite_fst] at hmem
  rcases List.mem_map.mp hmem with ⟨inv, hinv, heq⟩
  by_cases hc : inv.id == j && !inv.claimed
  · rw [if_pos hc] at heq
    rw [← heq]
    rfl
  · rw [if_neg hc] at heq
    rw [← heq] at hid ⊢
    simp only [Bool.and_eq_true, beq_iff_eq, Bool.not_eq_true', not_and] at hc
    have := hc hid
    simpa using this

theorem allClaimed_preserved_claim {db : List ParentInvite} {i : ℕ} (j u n : ℕ)
    (h : ∀ inv ∈ db, inv.id = i → inv.claimed = true) :
    ∀ inv' ∈ (claimInvite db j u n).1, inv'.id = i → inv'.claimed = true := by
  intro inv' hmem hid
  rw [claimInvite_fst] at hmem
  rcases List.mem_map.mp hmem with ⟨inv, hinv, heq⟩
  by_cases hc : inv.id == j && !inv.claimed
  · rw [if_pos hc] at heq
    rw [← heq]
    rfl
  · rw [if_neg hc] at heq
    rw [← heq] at hid ⊢
    exact h inv hinv hid

theorem claimInvite_succ_sound {db : List ParentInvite} {j u n : ℕ}
    (h : ((claimInvite db j u n).2).isSome = true) :
    ∃ inv ∈ db, inv.id = j ∧ inv.claimed = false := by
  rw [claimInvite_snd] at h
  rcases hh : (db.filter (fun inv => inv.id == j && !inv.claimed)).head? with _ | inv
  · rw [hh] at h
    exact absurd h (by simp)
  · have hmem : inv ∈ db.filter (fun inv => inv.id == j && !inv.claimed) :=
      List.mem_of_mem_head? (by rw [hh]; rfl)
    rcases List.mem_filter.mp hmem with ⟨hdb, hp⟩
    simp only [Bool.and_eq_true, beq_iff_eq, Bool.not_eq_true'] at hp
    exact ⟨inv, hdb, hp.1, hp.2⟩

theorem claimSuccessCount_cons (i : ℕ) (db : List ParentInvite) (op : InviteOp)
    (rest : List InviteOp) :
    claimSuccessCount i db (op :: rest) =
      (if (stepInvite db op).2 && targetsInvite op i then 1 else 0) +
        claimSuccessCount i (stepInvite db op).1 rest := rfl

theorem claimSuccess_le_one (i : ℕ) :
    ∀ (ops : List InviteOp) (db : List ParentInvite),
      (∀ op ∈ ops, ∀ inv, op = InviteOp.add inv → inv.id ≠ i) →
      claimSuccessCount i db ops ≤ 1
      ∧ ((∀ inv ∈ db, inv.id = i → inv.claimed = true) →
          claimSuccessCount i db ops = 0) := by
  intro ops
  induction ops with
  | nil => intro db _; exact ⟨Nat.zero_le 1, fun _ => rfl⟩
  | cons op rest ih =>
    intro db hops
    have hops' : ∀ op' ∈ rest, ∀ inv, op' = InviteOp.add inv → inv.id ≠ i :=
      fun op' h' => hops op' (List.mem_cons_of_mem _ h')
    match op with
    | InviteOp.add inv =>
      have hni : inv.id ≠ i := hops _ (List.mem_cons_self _ _) inv rfl
      have hstep : claimSuccessCount i db (InviteOp.add inv :: rest) =
          claimSuccessCount i (db ++ [inv]) rest := by
        rw [claimSuccessCount_cons]
        simp [stepInvite, targetsInvite, addParentInvite]
      constructor
      · rw [hstep]
        exact (ih _ hops').1
      · intro hall
        rw [hstep]
        refine (ih _ hops').2 ?_
        intro inv' hmem hid
        rcases List.mem_append.mp hmem with h1 | h1
        · exact hall inv' h1 hid
        · rcases List.mem_singleton.mp h1 with rfl
          exact absurd hid hni
    | InviteOp.claim j u n =>
      by_cases hji : j = i
      · have hbeq : (j == i) = true := by simp [hji]
        have hafter : ∀ inv' ∈ (claimInvite db j u n).1, inv'.id = i → inv'.claimed = true := by
          intro inv' hm hid
          exact claimInvite_allClaimed_after db j u n inv' hm (by rw [hji]; exact hid)
        have hrest0 : claimSuccessCount i (claimInvite db j u n).1 rest = 0 :=
          (ih _ hops').2 hafter
        by_cases hs : ((claimInvite db j u n).2).isSome
        · have hstep : claimSuccessCount i db (InviteOp.claim j u n :: rest) =
              1 + claimSuccessCount i (claimInvite db j u n).1 rest := by
            rw [claimSuccessCount_cons]
            simp [stepInvite, targetsInvite, hs, hbeq]
          constructor
          · rw [hstep, hrest0]
          · intro hall
            rcases claimInvite_succ_sound hs with ⟨inv, hmem, hid, hcl⟩
            rw [hji] at hid
            rw [hall inv hmem hid] at hcl
            exact absurd hcl (by simp)
        · have hstep : claimSuccessCount i db (InviteOp.claim j u n :: rest) =
              claimSuccessCount i (claimInvite db j u n).1 rest := by
            rw [claimSuccessCount_cons]
            simp [stepInvite, targetsInvite, hs]
          constructor
          · rw [hstep, hrest0]
            exact Nat.zero_le 1
          · intro _
            rw [hstep, hrest0]
      · have htf : targetsInvite (InviteOp.claim j u n) i = false := by
          simp [targetsInvite, hji]
        have hstep : claimSuccessCount i db (InviteOp.claim j u n :: rest) =
            claimSuccessCount i (claimInvite db j u n).1 rest := by
          rw [claimSuccessCount_cons]
          simp [stepInvite, htf]
        constructor
        · rw [hstep]
          exact (ih _ hops').1
        · intro hall
          rw [hstep]
          exact (ih _ hops').2 (allClaimed_preserved_claim j u n hall)

theorem validateInviteCode_none {db : List ParentInvite} {code : List Char} {now : ℕ}
    (h : ∀ inv ∈ db, inv.inviteCode = code →
      inv.claimed = true ∨ ∃ t, inv.expiresAt = some t ∧ t < now) :
    validateInviteCode db code now = none := by
  unfold validateInviteCode
  rcases hf : db.find? (fun inv => inv.inviteCode == code) with _ | inv
  · simp only [hf]
  · simp only [hf]
    have hmem := List.mem_of_find?_eq_some hf
    have hcode : inv.inviteCode = code := by simpa using List.find?_some hf
    by_cases hc : inv.claimed
    · rw [if_pos hc]
    · rw [if_neg hc]
      rcases h inv hmem hcode with hcl | ⟨t, ht, htn⟩
      · exact absurd hcl hc
      · simp only [ht]
        rw [if_pos htn]

theorem completeRegistration_invalid {invites : List ParentInvite} {users : List User}
    {userId : ℕ} {code : List Char} {now : ℕ}
    (h : validateInviteCode invites code now = none) :
    completeParentRegistration invites users userId code now =
      (invites, users, CompleteResult.invalidCode) := by
  unfold completeParentRegistration
  rw [h]

theorem ranking_wellformed_witness :
    calculateRankings wEventRun [wPerfBlank] [wStudentA] = [] :=
  (ranking_wellformed wEventRun [wPerfBlank] [wStudentA]).2.2.2.2.2 (by decide)

theorem ranking_best_and_sorted_witness :
    Decimal.toRat ⟨128, 1⟩ ≤ Decimal.toRat ⟨129, 1⟩ := by
  rcases (ranking_best_and_sorted wEventRun wPerfsRun [wStudentA, wStudentB]
      (by decide)).2 0 (by decide) (by decide) with ⟨x, y, hx, hy, hr, _⟩
  have hx' : some x = some (⟨128, 1⟩ : Decimal) := by
    rw [← hx]
    decide
  have hy' : some y = some (⟨129, 1⟩ : Decimal) := by
    rw [← hy]
    decide
  rw [Option.some_inj] at hx' hy'
  rw [← hx', ← hy']
  exact hr rfl

theorem ranking_students_witness :
    (⟨⟨wStudentA, ("12.8s").toList, some ⟨128, 1⟩⟩, 1⟩ : RankedEntry).entry.student ∈
      [wStudentA, wStudentB] :=
  ranking_students_from_input wEventRun wPerfsRun [wStudentA, wStudentB]
    ⟨⟨wStudentA, ("12.8s").toList, some ⟨128, 1⟩⟩, 1⟩ (by decide)

/-- Claim C6: an attempt to claim an already-claimed or expired invite
code fails at validation (no mutation at all, of `parentUserId` in
particular); a conditional-update claim against an invite whose rows are
all claimed affects zero rows and leaves the table unchanged; and along
any run of storage operations (claims and inserts with fresh ids), at
most one claim of a given invite ever succeeds. -/
theorem invite_claim_safety (invites : List ParentInvite) (users : List User)
    (userId : ℕ) (code : List Char) (now : ℕ) (inviteId u n : ℕ)
    (ops : List InviteOp) :
    ((∀ inv ∈ invites, inv.inviteCode = code →
        inv.claimed = true ∨ ∃ t, inv.expiresAt = some t ∧ t < now) →
      completeParentRegistration invites users userId code now =
        (invites, users, CompleteResult.invalidCode))
    ∧ ((∀ inv ∈ invites, inv.id = inviteId → inv.claimed = true) →
        claimInvite invites inviteId u n = (invites, none))
    ∧ ((∀ op ∈ ops, ∀ inv, op = InviteOp.add inv → inv.id ≠ inviteId) →
        claimSuccessCount inviteId invites ops ≤ 1) := by
  refine ⟨?_, ?_, ?_⟩
  · intro h
    exact completeRegistration_invalid (validateInviteCode_none h)
  · intro h
    exact claimInvite_eq_of_allClaimed u n h
  · intro h
    exact (claimSuccess_le_one inviteId ops invites h).1

theorem invite_claim_safety_witness :
    completeParentRegistration [wInviteClaimed] [⟨99, Role.coach⟩] 99
        (("CODE-1").toList) 10 =
      ([wInviteClaimed], [⟨99, Role.coach⟩], CompleteResult.invalidCode)
    ∧ claimInvite [wInviteClaimed] 50 99 10 = ([wInviteClaimed], none)
    ∧ claimSuccessCount 60 [wInviteFresh]
        [InviteOp.claim 60 99 10, InviteOp.claim 60 98 11] ≤ 1 :=
  ⟨(invite_claim_safety [wInviteClaimed] [⟨99, Role.coach⟩] 99 (("CODE-1").toList)
      10 50 99 10 []).1
    (by
      intro inv hm _
      rw [List.mem_singleton] at hm
      subst hm
      exact Or.inl rfl),
   (invite_claim_safety [wInviteClaimed] [⟨99, Role.coach⟩] 99 (("CODE-1").toList)
      10 50 99 10 []).2.1 (by decide),
   (invite_claim_safety [wInviteFresh] [] 0 [] 0 60 99 10
      [InviteOp.claim 60 99 10, InviteOp.claim 60 98 11]).2.2
    (by
      intro op hop inv heq
      rw [List.mem_cons, List.mem_singleton] at hop
      rcases hop with rfl | rfl
      · exact absurd heq (by simp)
      · exact absurd heq (by simp))⟩

end AthleteTracker
